import Mathlib

/-!
Verification development for the term-aggregation-and-clustering pipeline of
`src/xstate/python/terms/term_matrix.py` (class `TermMatrix`).

The shallow embedding below translates the source functions
`makeAggregationMatrix`, `makeTimeAggregationMatrix` and `calcClusters`.
Intensities are modelled as rationals (the source only adds them, so the
embedding is exact).  Python failure modes that the source can actually hit
(`KeyError` on the stripped-column dictionary, `IndexError` on a group tuple
shorter than an accessed position, the `pandas` requirement that all column
lists have equal length) are modelled by `Option`/`Except` results.

External collaborators (`common_python.statistics`, `scipy`) are not part of
the repository sources; where a claim depends on them they are modelled from
the specification, each such definition carrying a doc comment that starts
with `Modelled from the spec:`.
-/

/-- Python `str.strip()` with no argument: remove leading and trailing
whitespace characters.  (Lean's `Char.isWhitespace` covers space, tab,
carriage return and newline, which is what the counterexamples below use.) -/
def pyStrip (s : String) : String :=
  ⟨((s.data.dropWhile Char.isWhitespace).reverse.dropWhile Char.isWhitespace).reverse⟩

/-- The core dataframe `self.df_matrix`: columns are terms, rows are groups of
correlated genes; a group is a tuple of trinary values.  Each row pairs the
group tuple (the pandas index entry) with its per-column intensities. -/
structure TermMatrix where
  columns : List String
  rows : List (List Int × List ℚ)
deriving DecidableEq

/-- Result of `makeAggregationMatrix` / `makeTimeAggregationMatrix`
(a plain `pd.DataFrame` with a default integer index). -/
structure AggMatrix where
  columns : List String
  rows : List (List ℚ)
deriving DecidableEq

/-- A dataframe whose rows carry labels (used for the transposed, term-major
matrices inside `calcClusters`). -/
structure LabeledMatrix where
  index : List String
  rows : List (List ℚ)
deriving DecidableEq

/-- The dictionary comprehension `column_values = {c.strip(): [] for c in columns}`:
insert the stripped name of every column, first occurrence fixing the position
(re-inserting an existing key overwrites its value with the same fresh `[]`,
so it is modelled as a skip). -/
def emptyDict : List String → List (String × List ℚ) → List (String × List ℚ)
  | [], d => d
  | c :: cs, d =>
    if d.any (fun kv => kv.1 == pyStrip c) then emptyDict cs d
    else emptyDict cs (d ++ [(pyStrip c, [])])

/-- The statement `column_values[col].append(row[idx])`: append to the entry
whose key is `col`; `none` models the `KeyError` raised when `col` is not a
key of the dictionary. -/
def dictAppend (d : List (String × List ℚ)) (k : String) (v : ℚ) :
    Option (List (String × List ℚ)) :=
  if d.any (fun kv => kv.1 == k) then
    some (d.map (fun kv => if kv.1 == k then (kv.1, kv.2 ++ [v]) else kv))
  else none

/-- The loop `for idx, col in enumerate(columns): column_values[col].append(row[idx])`,
walking the columns and the accumulator row in lockstep (`none` also models an
out-of-range `row[idx]`, which cannot happen when the row has one value per
column). -/
def appendAll : List (String × List ℚ) → List String → List ℚ →
    Option (List (String × List ℚ))
  | d, [], _ => some d
  | _, _ :: _, [] => none
  | d, c :: cs, v :: vs =>
    match dictAppend d c v with
    | none => none
    | some d2 => appendAll d2 cs vs

/-- The inner accumulation loop shared by both aggregation functions:
`row` starts as zeros and every group whose tuple has the matched value at
position `pos` contributes its matrix row element-wise.  `none` models the
`IndexError` raised by `group[pos]` when the tuple is too short. -/
def computeRowAux (dir : Int) (pos : ℕ) :
    List (List Int × List ℚ) → List ℚ → Option (List ℚ)
  | [], acc => some acc
  | r :: rs, acc =>
    match r.1.get? pos with
    | none => none
    | some v =>
      computeRowAux dir pos rs (if v == dir then List.zipWith (· + ·) acc r.2 else acc)

/-- One accumulator row of the aggregation loop:
`row = np.repeat(0.0, len(columns))`, then the scan over `self.df_matrix.index`. -/
def computeRow (m : TermMatrix) (dir : Int) (pos : ℕ) : Option (List ℚ) :=
  computeRowAux dir pos m.rows (List.replicate m.columns.length 0)

/-- The outer loop over partition positions: compute the accumulator row for
each position in order and append its entries into the column dictionary. -/
def aggLoop (m : TermMatrix) (dir : Int) :
    List ℕ → List (String × List ℚ) → Option (List (String × List ℚ))
  | [], d => some d
  | pos :: rest, d =>
    match computeRow m dir pos with
    | none => none
    | some row =>
      match appendAll d m.columns row with
      | none => none
      | some d2 => aggLoop m dir rest d2

/-- The final `pd.DataFrame(column_values)`: keys become columns in insertion
order and the per-key lists become the column data; `pandas` requires all the
lists to have the same length (`none` otherwise), and an empty dictionary
yields an empty frame. -/
def toAgg : List (String × List ℚ) → Option AggMatrix
  | [] => some ⟨[], []⟩
  | kv :: rest =>
    if rest.all (fun kv2 => kv2.2.length == kv.2.length) then
      some ⟨(kv :: rest).map Prod.fst,
            (List.range kv.2.length).map
              (fun p => (kv :: rest).map (fun kv2 => kv2.2.getD p 0))⟩
    else none

/-- Common body of the two aggregation functions: build the stripped-key
dictionary, run the accumulation loop over the given positions with the given
match value, and assemble the resulting dataframe. -/
def aggCore (m : TermMatrix) (dir : Int) (positions : List ℕ) : Option AggMatrix :=
  match aggLoop m dir positions (emptyDict m.columns []) with
  | none => none
  | some d => toAgg d

/-- `TermMatrix.makeAggregationMatrix(self, predicates)`.  The source guards
the predicate-based accumulation with `if False:` (dead code, marked
`# TODO: Fix predicates`), so the predicates are never called; the live loop
tests `group[pos] == 1`, where `pos` is the predicate's index from
`enumerate(predicates)`. -/
def makeAggregationMatrix (m : TermMatrix)
    (predicates : List (List Int → Bool)) : Option AggMatrix :=
  aggCore m 1 (List.range predicates.length)

/-- `TermMatrix.makeTimeAggregationMatrix(self, is_up_regulated=True)`.
The parameter `numTimes` stands for `cn.NUM_TIMES`.  Modelled from the spec:
`common/constants.py` is not under `src/`, so the number of time points is
passed explicitly (a fixed-length ordered sequence of trinary values, one per
time point). -/
def makeTimeAggregationMatrix (numTimes : ℕ) (m : TermMatrix)
    (is_up_regulated : Bool) : Option AggMatrix :=
  aggCore m (if is_up_regulated then 1 else -1) (List.range numTimes)

/-- Total description of one accumulator row, used to state the theorems:
fold over the matrix rows, adding every row whose group tuple carries the
matched value at the given position. -/
def crow (m : TermMatrix) (dir : Int) (pos : ℕ) : List ℚ :=
  m.rows.foldl
    (fun acc r => if r.1.getD pos 0 == dir then List.zipWith (· + ·) acc r.2 else acc)
    (List.replicate m.columns.length 0)

/-- Element-wise sum of a list of rows, starting from the all-zero row of the
given width. -/
def rowSum (n : ℕ) (rs : List (List ℚ)) : List ℚ :=
  rs.foldl (fun acc r => List.zipWith (· + ·) acc r) (List.replicate n 0)

/-- Abbreviation used by the analysis lemmas: the effect of one successful
pass of the append loop on the dictionary — entry `j` gains the accumulator
row's `j`-th value. -/
def stepD (d : List (String × List ℚ)) (row : List ℚ) : List (String × List ℚ) :=
  List.zipWith (fun kv v => (kv.1, kv.2 ++ [v])) d row

/-- Row transpose `df.T`: the aggregation matrix's columns become the row
index and each new row collects one column's values across partitions. -/
def transposeAgg (a : AggMatrix) : LabeledMatrix :=
  ⟨a.columns,
   (List.range a.columns.length).map (fun j => a.rows.map (fun r => r.getD j 0))⟩

/-- Boolean test that every value of a row equals every other (zero variance). -/
def allEqual : List ℚ → Bool
  | [] => true
  | x :: rest => rest.all (fun y => y == x)

/-- Modelled from the spec: `util_statistics.filterZeroVarianceRows` from
`common_python` (not under `src/`) drops every row whose values are all equal
(variance exactly zero) and keeps the rest, labels staying aligned. -/
def filterZeroVarianceRows (m : LabeledMatrix) : LabeledMatrix :=
  ⟨((m.index.zip m.rows).filter (fun p => !allEqual p.2)).map Prod.fst,
   ((m.index.zip m.rows).filter (fun p => !allEqual p.2)).map Prod.snd⟩

/-- Error kinds that `calcClusters` can surface. -/
inductive XError where
  | aggError
  | degenerateInput
deriving DecidableEq

/-- `TermMatrix.calcClusters(self, max_distance=1, is_up_regulated=True)`.
External collaborators are passed as parameters: `scoreRow` stands for
`util_statistics.calcLogSL(·, round_decimal=3)` applied row-wise (modelled
from the spec: significance scoring uses each row's own distribution, so it
acts per row), and `mkLinkage` for `linkage(distance.pdist(·), method='average')`.
`cutTree` stands for `scipy.cluster.hierarchy.fcluster(tree, threshold,
criterion="distance")`; the source invokes it with the literal threshold
`0.1` — the `max_distance` parameter is never used.  Modelled from the spec:
clustering "fails with DegenerateInputError if fewer than two terms are
present", standing for the failure scipy's linkage raises on fewer than two
observations (scipy is not under `src/`). -/
def calcClusters {α : Type} (numTimes : ℕ) (scoreRow : List ℚ → List ℚ)
    (mkLinkage : List (List ℚ) → α) (cutTree : α → ℚ → List ℕ)
    (m : TermMatrix) (max_distance : ℚ) (is_up_regulated : Bool) :
    Except XError (LabeledMatrix × α × (List String × List ℕ)) :=
  match makeTimeAggregationMatrix numTimes m is_up_regulated with
  | none => Except.error XError.aggError
  | some df =>
    let df_filtered := filterZeroVarianceRows (transposeAgg df)
    let df_log : LabeledMatrix := ⟨df_filtered.index, df_filtered.rows.map scoreRow⟩
    if df_log.rows.length < 2 then Except.error XError.degenerateInput
    else
      let row_linkage := mkLinkage df_log.rows
      let ser_cluster := cutTree row_linkage (1 / 10)
      Except.ok (df_log, row_linkage, (df_log.index, ser_cluster))

/-- C1: the claim says row `i` of `makeAggregationMatrix` sums exactly the
rows whose group satisfies predicate `i`.  On the matrix with the single
group `(0,)` (term `A` intensity `1`) and the single always-true predicate,
the group satisfies the predicate, yet the produced row is all zeros: the
live loop tests `group[pos] == 1` and never calls the predicate (the
predicate-based accumulation sits under `if False:`, marked
`# TODO: Fix predicates`), contradicting the function's own docstring. -/
theorem makeAggregationMatrix_ignores_satisfied_predicate :
    makeAggregationMatrix ⟨["A"], [([0], [1])]⟩ [fun _ => true] = some ⟨["A"], [[0]]⟩ ∧
    (fun (_ : List Int) => true) [0] = true ∧
    some (⟨["A"], [[0]]⟩ : AggMatrix) ≠ some ⟨["A"], [[1]]⟩ := by
  refine ⟨?_, rfl, by decide⟩
  simp +decide [makeAggregationMatrix, aggCore, aggLoop, computeRow, computeRowAux,
    appendAll, dictAppend, emptyDict, toAgg, pyStrip, List.range_succ]

/-- C5: the claim says that for a predicate list forming a true partition of
the groups, the rows of the aggregation matrix sum to the column-wise sum of
the input.  With groups `(0,)` (A: 2) and `(1,)` (A: 3) and the single
always-true predicate (every group satisfies exactly this one predicate),
the aggregation matrix is `[[3]]` — row sum `[3]` — while the column-wise
sum of the input is `[5]`: conservation fails because the predicates are
ignored (`group[pos] == 1` is tested instead, `# TODO: Fix predicates`). -/
theorem aggregation_conservation_fails_eval :
    makeAggregationMatrix ⟨["A"], [([0], [2]), ([1], [3])]⟩ [fun _ => true] =
      some ⟨["A"], [[3]]⟩ ∧
    (fun (_ : List Int) => true) [0] = true ∧
    (fun (_ : List Int) => true) [1] = true ∧
    rowSum 1 [[(3 : ℚ)]] = [3] ∧
    rowSum 1 ([([0], [2]), (([1], [3]) : List Int × List ℚ)].map Prod.snd) = [5] ∧
    ([(3 : ℚ)] : List ℚ) ≠ [5] := by
  refine ⟨?_, rfl, rfl, ?_, ?_, by decide⟩
  · simp +decide [makeAggregationMatrix, aggCore, aggLoop, computeRow, computeRowAux,
      appendAll, dictAppend, emptyDict, toAgg, pyStrip, List.range_succ]
  · simp +decide [rowSum]
  · simp +decide [rowSum]
    norm_num

/-- C2: the claim says the flat cut is taken at the caller-supplied
`max_distance`.  Instantiating the external cut primitive with a function
that returns `[1, 1]` at threshold `1/10` and `[2, 2]` at any other
threshold, and calling `calcClusters` with `max_distance = 7`, the returned
assignment is `[1, 1]`: the source passes the literal `0.1` to `fcluster`
and never uses `max_distance`, contradicting its own docstring for the
parameter. -/
theorem calcClusters_cuts_at_hardcoded_threshold :
    calcClusters 2 id (fun _ => ())
        (fun (_ : Unit) t => List.replicate 2 (if t == (1 : ℚ) / 10 then 1 else 2))
        ⟨["A", "B"], [([1, 0], [1, 0]), ([0, 1], [0, 1])]⟩ 7 true =
      Except.ok (⟨["A", "B"], [[1, 0], [0, 1]]⟩, (), (["A", "B"], [1, 1])) ∧
    (fun (_ : Unit) t => List.replicate 2 (if t == (1 : ℚ) / 10 then 1 else 2)) () 7 =
      [2, 2] ∧
    ([1, 1] : List ℕ) ≠ [2, 2] := by
  refine ⟨?_, ?_, by decide⟩
  · simp +decide [calcClusters, makeTimeAggregationMatrix, aggCore, aggLoop, computeRow,
      computeRowAux, appendAll, dictAppend, emptyDict, toAgg, pyStrip, List.range_succ,
      transposeAgg, filterZeroVarianceRows, allEqual]
  · norm_num [List.replicate]

/-- C4, counterexample: the aggregation output does not always carry the
input's column set.  With the single column `" A"` (leading space) and an
empty predicate list, `makeAggregationMatrix` returns a matrix whose column
set is `["A"]` — the stripped name — not `[" A"]`; and with one time point
`makeTimeAggregationMatrix` on the same column raises `KeyError` (the
dictionary is keyed by stripped names but indexed by the unstripped ones),
producing no matrix at all. -/
theorem aggregation_column_strip_counterexample :
    makeAggregationMatrix ⟨[" A"], []⟩ [] = some ⟨["A"], []⟩ ∧
    (["A"] : List String) ≠ [" A"] ∧
    makeTimeAggregationMatrix 1 ⟨[" A"], [([1], [5])]⟩ true = none := by
  refine ⟨by decide, by decide, by decide⟩

/-- C3, counterexample: the claimed scenario output is wrong.  On the matrix
with groups `(1,0,-1) ↦ (A:2, B:0)`, `(1,1,1) ↦ (A:1, B:3)`,
`(-1,-1,0) ↦ (A:0, B:1)` over 3 time points, direction up, the code produces
rows `(3,3), (1,3), (1,3)`: group `(1,1,1)` has entry `+1` at time 2, so the
third row is `(A=1, B=3)`, not the claimed `(A=0, B=0)`. -/
theorem timeAggregation_scenario_row2_counterexample :
    makeTimeAggregationMatrix 3
        ⟨["A", "B"], [([1, 0, -1], [2, 0]), ([1, 1, 1], [1, 3]), ([-1, -1, 0], [0, 1])]⟩
        true =
      some ⟨["A", "B"], [[3, 3], [1, 3], [1, 3]]⟩ ∧
    some (⟨["A", "B"], [[3, 3], [1, 3], [1, 3]]⟩ : AggMatrix) ≠
      some ⟨["A", "B"], [[3, 3], [1, 3], [0, 0]]⟩ := by
  refine ⟨?_, by decide⟩
  simp +decide [makeTimeAggregationMatrix, aggCore, aggLoop, computeRow, computeRowAux,
    appendAll, dictAppend, emptyDict, toAgg, pyStrip, List.range_succ]
  norm_num

/-- C8: `makeAggregationMatrix` depends only on the number of predicates
supplied, never on what any predicate computes — the predicates are used
solely through `enumerate`, the predicate-calling branch being dead code. -/
theorem makeAggregationMatrix_depends_only_on_length (m : TermMatrix)
    (ps1 ps2 : List (List Int → Bool)) (h : ps1.length = ps2.length) :
    makeAggregationMatrix m ps1 = makeAggregationMatrix m ps2 := by
  unfold makeAggregationMatrix
  rw [h]

theorem makeAggregationMatrix_depends_only_on_length_witness :
    ([fun (g : List Int) => g.getD 0 0 == 1].length =
      [fun (_ : List Int) => false].length) ∧
    makeAggregationMatrix ⟨["A"], [([1], [1])]⟩ [fun (g : List Int) => g.getD 0 0 == 1] =
      makeAggregationMatrix ⟨["A"], [([1], [1])]⟩ [fun _ => false] :=
  ⟨rfl, makeAggregationMatrix_depends_only_on_length _ _ _ rfl⟩

/-- C9: `calcClusters` never reads its `max_distance` argument: for any two
values of `max_distance` (all other inputs, including the external
primitives, held fixed) the returned significance matrix, linkage tree and
cluster assignment are identical. -/
theorem calcClusters_independent_of_max_distance {α : Type} (numTimes : ℕ)
    (scoreRow : List ℚ → List ℚ) (mkLinkage : List (List ℚ) → α)
    (cutTree : α → ℚ → List ℕ) (m : TermMatrix) (md1 md2 : ℚ)
    (is_up_regulated : Bool) :
    calcClusters numTimes scoreRow mkLinkage cutTree m md1 is_up_regulated =
      calcClusters numTimes scoreRow mkLinkage cutTree m md2 is_up_regulated := rfl

/-- C10: for a predicate list whose length equals the number of time points,
the generic predicate path computes exactly the up-regulated time path: both
iterate the same positions and test `group[pos] == 1`. -/
theorem makeAggregationMatrix_eq_timeAggregation (numTimes : ℕ) (m : TermMatrix)
    (predicates : List (List Int → Bool)) (h : predicates.length = numTimes) :
    makeAggregationMatrix m predicates = makeTimeAggregationMatrix numTimes m true := by
  unfold makeAggregationMatrix makeTimeAggregationMatrix
  rw [h]
  rfl

theorem makeAggregationMatrix_eq_timeAggregation_witness :
    ([fun (_ : List Int) => false].length = 1) ∧
    makeAggregationMatrix ⟨["A"], [([1], [2])]⟩ [fun _ => false] =
      makeTimeAggregationMatrix 1 ⟨["A"], [([1], [2])]⟩ true :=
  ⟨rfl, makeAggregationMatrix_eq_timeAggregation 1 _ _ rfl⟩

/-- Helper: a map whose function fixes every member is the identity. -/
theorem list_map_id_of {α : Type} (f : α → α) :
    ∀ (l : List α), (∀ x ∈ l, f x = x) → l.map f = l
  | [], _ => rfl
  | x :: xs, h => by
    rw [List.map_cons, h x (List.mem_cons_self x xs),
      list_map_id_of f xs (fun y hy => h y (List.mem_cons_of_mem x hy))]

/-- When every group tuple is long enough for the accessed position, the inner
accumulation loop cannot raise and computes the corresponding fold. -/
theorem computeRowAux_eq_foldl (dir : Int) (pos : ℕ) :
    ∀ (rs : List (List Int × List ℚ)) (acc : List ℚ),
      (∀ r ∈ rs, pos < r.1.length) →
      computeRowAux dir pos rs acc =
        some (rs.foldl (fun a r =>
          if r.1.getD pos 0 == dir then List.zipWith (· + ·) a r.2 else a) acc)
  | [], _, _ => rfl
  | r :: rs, acc, h => by
    have hr : pos < r.1.length := h r (List.mem_cons_self r rs)
    have hget : r.1.get? pos = some (r.1.getD pos 0) := by
      rw [List.get?_eq_get hr, List.getD_eq_getElem r.1 0 hr]
      rfl
    rw [computeRowAux, hget]
    dsimp only
    rw [List.foldl_cons]
    exact computeRowAux_eq_foldl dir pos rs _ (fun s hs => h s (List.mem_cons_of_mem r hs))

/-- When every group tuple is long enough, the accumulator row of the source
loop equals its total description `crow`. -/
theorem computeRow_eq_crow (m : TermMatrix) (dir : Int) (pos : ℕ)
    (h : ∀ r ∈ m.rows, pos < r.1.length) :
    computeRow m dir pos = some (crow m dir pos) :=
  computeRowAux_eq_foldl dir pos m.rows _ h

/-- The conditional accumulation fold preserves the accumulator's length when
all contributing rows have that length. -/
theorem foldl_cond_add_length (dir : Int) (pos : ℕ) (n : ℕ) :
    ∀ (rs : List (List Int × List ℚ)) (acc : List ℚ),
      (∀ r ∈ rs, r.2.length = n) → acc.length = n →
      (rs.foldl (fun a r =>
        if r.1.getD pos 0 == dir then List.zipWith (· + ·) a r.2 else a) acc).length = n
  | [], _, _, hacc => hacc
  | r :: rs, acc, h, hacc => by
    rw [List.foldl_cons]
    refine foldl_cond_add_length dir pos n rs _
      (fun s hs => h s (List.mem_cons_of_mem r hs)) ?_
    cases hc : (r.1.getD pos 0 == dir)
    · simp only [hc, Bool.false_eq_true, if_false]
      exact hacc
    · simp only [hc, if_true, List.length_zipWith, hacc, h r (List.mem_cons_self r rs),
        Nat.min_self]

/-- `crow` produces one value per column. -/
theorem crow_length (m : TermMatrix) (dir : Int) (pos : ℕ)
    (h : ∀ r ∈ m.rows, r.2.length = m.columns.length) :
    (crow m dir pos).length = m.columns.length :=
  foldl_cond_add_length dir pos m.columns.length m.rows _ h (List.length_replicate _ _)

/-- The claim-facing form of `crow`: the element-wise sum of exactly those
matrix rows whose group tuple matches the direction at the position. -/
theorem crow_eq_rowSum_filter (m : TermMatrix) (dir : Int) (pos : ℕ) :
    crow m dir pos =
      rowSum m.columns.length
        ((m.rows.filter (fun r => r.1.getD pos 0 == dir)).map Prod.snd) := by
  unfold crow rowSum
  generalize (List.replicate m.columns.length (0 : ℚ)) = acc
  induction m.rows generalizing acc with
  | nil => rfl
  | cons r rs ih =>
    rw [List.foldl_cons, List.filter_cons]
    cases hc : (r.1.getD pos 0 == dir)
    · simp only [hc, Bool.false_eq_true, if_false]
      exact ih _
    · simp only [hc, if_true, List.map_cons, List.foldl_cons]
      exact ih _

/-- A position matched by no group yields the all-zero row. -/
theorem crow_zero_of_no_match (m : TermMatrix) (dir : Int) (pos : ℕ)
    (h : ∀ r ∈ m.rows, (r.1.getD pos 0 == dir) = false) :
    crow m dir pos = List.replicate m.columns.length 0 := by
  rw [crow_eq_rowSum_filter, List.filter_eq_nil_iff.mpr (fun r hr => by simpa using h r hr)]
  rfl

/-- With whitespace-free, duplicate-free column names that are all fresh for
the starting dictionary, the dictionary comprehension appends one empty entry
per column, in order. -/
theorem emptyDict_eq_append :
    ∀ (cs : List String) (d : List (String × List ℚ)),
      (∀ c ∈ cs, pyStrip c = c) → cs.Nodup →
      (∀ c ∈ cs, ∀ kv ∈ d, kv.1 ≠ c) →
      emptyDict cs d = d ++ cs.map (fun c => (c, ([] : List ℚ)))
  | [], d, _, _, _ => by simp [emptyDict]
  | c :: cs, d, hstripinv, hnodup, hfresh => by
    have hc : pyStrip c = c := hstripinv c (List.mem_cons_self c cs)
    have hany : (d.any (fun kv => kv.1 == pyStrip c)) = false := by
      rw [List.any_eq_false]
      intro kv hkv
      rw [hc]
      simpa using hfresh c (List.mem_cons_self c cs) kv hkv
    rw [emptyDict, hany]
    simp only [Bool.false_eq_true, if_false, hc]
    rw [emptyDict_eq_append cs (d ++ [(c, [])])
      (fun x hx => hstripinv x (List.mem_cons_of_mem c hx))
      (List.nodup_cons.mp hnodup).2
      (fun x hx kv hkv => by
        rcases List.mem_append.mp hkv with hkv' | hkv'
        · exact hfresh x (List.mem_cons_of_mem c hx) kv hkv'
        · rcases List.mem_singleton.mp hkv' with rfl
          intro hcontra
          exact (List.nodup_cons.mp hnodup).1 (by rw [← hcontra] at hx; exact hx))]
    simp [List.append_assoc]

/-- Unfolding of `stepD` on matching conses. -/
theorem stepD_cons (kv : String × List ℚ) (rest : List (String × List ℚ))
    (v : ℚ) (vs : List ℚ) :
    stepD (kv :: rest) (v :: vs) = (kv.1, kv.2 ++ [v]) :: stepD rest vs := rfl

/-- When the column list is exactly the dictionary's key list (duplicate-free)
and the accumulator row has one value per key, the append loop cannot raise a
`KeyError` and appends the row's values entry-wise. -/
theorem appendAll_spec :
    ∀ (post pre : List (String × List ℚ)) (row : List ℚ),
      ((pre ++ post).map Prod.fst).Nodup → row.length = post.length →
      appendAll (pre ++ post) (post.map Prod.fst) row = some (pre ++ stepD post row)
  | [], pre, row, _, _ => by simp [appendAll, stepD]
  | kv :: rest, pre, row, hnodup, hlen => by
    cases row with
    | nil => simp at hlen
    | cons v vs =>
      have hkeys : ((pre ++ kv :: rest).map Prod.fst) =
          pre.map Prod.fst ++ kv.1 :: rest.map Prod.fst := by
        simp
      have hnotpre : kv.1 ∉ pre.map Prod.fst := by
        rw [hkeys] at hnodup
        have hdisj := (List.nodup_append.mp hnodup).2.2
        intro hmem
        exact hdisj hmem (List.mem_cons_self _ _)
      have hnotrest : kv.1 ∉ rest.map Prod.fst := by
        rw [hkeys] at hnodup
        exact (List.nodup_cons.mp (List.nodup_append.mp hnodup).2.1).1
      have hany : ((pre ++ kv :: rest).any (fun kv2 => kv2.1 == kv.1)) = true :=
        List.any_eq_true.mpr ⟨kv, by simp, by simp⟩
      have hmap : (pre ++ kv :: rest).map
          (fun kv2 => if kv2.1 == kv.1 then (kv2.1, kv2.2 ++ [v]) else kv2) =
          pre ++ (kv.1, kv.2 ++ [v]) :: rest := by
        rw [List.map_append, List.map_cons]
        have h1 : pre.map (fun kv2 =>
            if kv2.1 == kv.1 then (kv2.1, kv2.2 ++ [v]) else kv2) = pre :=
          list_map_id_of _ pre (fun x hx => by
            have : x.1 ≠ kv.1 := fun he =>
              hnotpre (he ▸ List.mem_map_of_mem Prod.fst hx)
            simp [this])
        have h2 : rest.map (fun kv2 =>
            if kv2.1 == kv.1 then (kv2.1, kv2.2 ++ [v]) else kv2) = rest :=
          list_map_id_of _ rest (fun x hx => by
            have : x.1 ≠ kv.1 := fun he =>
              hnotrest (he ▸ List.mem_map_of_mem Prod.fst hx)
            simp [this])
        rw [h1, h2]
        simp
      have hstep : appendAll (pre ++ kv :: rest) ((kv :: rest).map Prod.fst) (v :: vs) =
          appendAll (pre ++ (kv.1, kv.2 ++ [v]) :: rest) (rest.map Prod.fst) vs := by
        rw [List.map_cons, appendAll]
        unfold dictAppend
        rw [hany]
        simp only [if_true, hmap]
      rw [hstep]
      have hassoc : pre ++ (kv.1, kv.2 ++ [v]) :: rest =
          (pre ++ [(kv.1, kv.2 ++ [v])]) ++ rest := by simp
      rw [hassoc]
      rw [appendAll_spec rest (pre ++ [(kv.1, kv.2 ++ [v])]) vs
        (by
          have : ((pre ++ [(kv.1, kv.2 ++ [v])]) ++ rest).map Prod.fst =
              (pre ++ kv :: rest).map Prod.fst := by simp
          rw [this]
          exact hnodup)
        (by simpa using Nat.succ.inj (by simpa using hlen))]
      rw [stepD_cons]
      simp

/-- `stepD` preserves the key list when the row covers the dictionary. -/
theorem stepD_map_fst : ∀ (d : List (String × List ℚ)) (row : List ℚ),
    row.length = d.length → (stepD d row).map Prod.fst = d.map Prod.fst
  | [], _, _ => rfl
  | _ :: _, [], h => by simp at h
  | kv :: rest, v :: vs, h =>
    by rw [stepD_cons, List.map_cons, List.map_cons,
      stepD_map_fst rest vs (Nat.succ.inj (by simpa using h))]

/-- `stepD` extends every surviving entry's list by one value. -/
theorem stepD_entry_length : ∀ (d : List (String × List ℚ)) (row : List ℚ) (n : ℕ),
    (∀ kv ∈ d, kv.2.length = n) → ∀ kv ∈ stepD d row, kv.2.length = n + 1
  | [], _, _, _, kv, hkv => by simp [stepD] at hkv
  | _ :: _, [], _, _, kv, hkv => by simp [stepD] at hkv
  | kv0 :: rest, v :: vs, n, h, kv, hkv => by
    rw [stepD_cons] at hkv
    rcases List.mem_cons.mp hkv with rfl | hkv2
    · simp [h kv0 (List.mem_cons_self kv0 rest)]
    · exact stepD_entry_length rest vs n
        (fun kv2 h2 => h kv2 (List.mem_cons_of_mem kv0 h2)) kv hkv2

/-- When the dictionary's key list is exactly the column list (duplicate-free)
and the matrix rows are well-sized, the outer loop cannot raise and folds
`stepD` with the accumulator rows, in order. -/
theorem aggLoop_eq_foldl (m : TermMatrix) (dir : Int)
    (hnodup : m.columns.Nodup)
    (hlen : ∀ r ∈ m.rows, r.2.length = m.columns.length) :
    ∀ (ps : List ℕ) (d : List (String × List ℚ)),
      d.map Prod.fst = m.columns →
      (∀ pos ∈ ps, ∀ r ∈ m.rows, pos < r.1.length) →
      aggLoop m dir ps d =
        some (ps.foldl (fun d2 pos => stepD d2 (crow m dir pos)) d)
  | [], _, _, _ => rfl
  | pos :: rest, d, hfst, hg => by
    have hdlen : d.length = m.columns.length := by rw [← hfst, List.length_map]
    have hrow : (crow m dir pos).length = d.length := by
      rw [crow_length m dir pos hlen, hdlen]
    have happ : appendAll d m.columns (crow m dir pos) =
        some (stepD d (crow m dir pos)) := by
      have h0 := appendAll_spec d [] (crow m dir pos)
        (by simpa [hfst] using hnodup) (by simpa using hrow)
      simpa [hfst] using h0
    rw [aggLoop, computeRow_eq_crow m dir pos (hg pos (List.mem_cons_self pos rest))]
    dsimp only
    rw [happ]
    dsimp only
    rw [List.foldl_cons]
    exact aggLoop_eq_foldl m dir hnodup hlen rest (stepD d (crow m dir pos))
      (by rw [stepD_map_fst d _ hrow, hfst])
      (fun q hq => hg q (List.mem_cons_of_mem pos hq))

/-- `toAgg` on a non-empty dictionary whose lists all have length `n`. -/
theorem toAgg_uniform (d : List (String × List ℚ)) (n : ℕ) (hne : d ≠ [])
    (hu : ∀ kv ∈ d, kv.2.length = n) :
    toAgg d = some ⟨d.map Prod.fst,
      (List.range n).map (fun p => d.map (fun kv => kv.2.getD p 0))⟩ := by
  cases d with
  | nil => exact absurd rfl hne
  | cons kv rest =>
    have hk : kv.2.length = n := hu kv (List.mem_cons_self kv rest)
    have hall : (rest.all fun kv2 => kv2.2.length == kv.2.length) = true :=
      List.all_eq_true.mpr (fun kv2 h2 => by
        rw [hu kv2 (List.mem_cons_of_mem kv h2), hk]
        simp)
    rw [toAgg, hall]
    simp only [if_true, hk]

/-- Entry-wise reading of `stepD` at a position strictly below the old common
list length: the appended values are invisible. -/
theorem map_getD_stepD_lt : ∀ (d : List (String × List ℚ)) (row : List ℚ)
    (n p : ℕ), row.length = d.length → (∀ kv ∈ d, kv.2.length = n) → p < n →
    (stepD d row).map (fun kv => kv.2.getD p 0) = d.map (fun kv => kv.2.getD p 0)
  | [], _, _, _, _, _, _ => rfl
  | _ :: _, [], _, _, h, _, _ => by simp at h
  | kv :: rest, v :: vs, n, p, h, hu, hp => by
    rw [stepD_cons, List.map_cons, List.map_cons]
    have hk : kv.2.length = n := hu kv (List.mem_cons_self kv rest)
    rw [List.getD_append kv.2 [v] 0 p (by rw [hk]; exact hp)]
    rw [map_getD_stepD_lt rest vs n p (Nat.succ.inj (by simpa using h))
      (fun kv2 h2 => hu kv2 (List.mem_cons_of_mem kv h2)) hp]

/-- Entry-wise reading of `stepD` at the old common list length recovers the
appended row. -/
theorem map_getD_stepD_last : ∀ (d : List (String × List ℚ)) (row : List ℚ)
    (n : ℕ), row.length = d.length → (∀ kv ∈ d, kv.2.length = n) →
    (stepD d row).map (fun kv => kv.2.getD n 0) = row
  | [], [], _, _, _ => rfl
  | [], _ :: _, _, h, _ => by simp at h
  | _ :: _, [], _, h, _ => by simp at h
  | kv :: rest, v :: vs, n, h, hu => by
    rw [stepD_cons, List.map_cons]
    have hk : kv.2.length = n := hu kv (List.mem_cons_self kv rest)
    rw [List.getD_append_right kv.2 [v] 0 n (by rw [hk]), hk]
    simp only [Nat.sub_self, List.getD_cons_zero]
    rw [map_getD_stepD_last rest vs n (Nat.succ.inj (by simpa using h))
      (fun kv2 h2 => hu kv2 (List.mem_cons_of_mem kv h2))]

/-- Invariants carried through the fold of `stepD` with accumulator rows:
the key list stays equal to the column list and every entry's list grows by
one value per processed position. -/
theorem foldl_stepD_invariants (m : TermMatrix) (dir : Int)
    (hlen : ∀ r ∈ m.rows, r.2.length = m.columns.length) :
    ∀ (ps : List ℕ) (d : List (String × List ℚ)) (k : ℕ),
      d.map Prod.fst = m.columns → (∀ kv ∈ d, kv.2.length = k) →
      ((ps.foldl (fun d2 pos => stepD d2 (crow m dir pos)) d).map Prod.fst = m.columns ∧
       ∀ kv ∈ ps.foldl (fun d2 pos => stepD d2 (crow m dir pos)) d,
         kv.2.length = k + ps.length)
  | [], _, _, hfst, hk => ⟨hfst, fun kv hkv => by simpa using hk kv hkv⟩
  | pos :: rest, d, k, hfst, hk => by
    have hdlen : d.length = m.columns.length := by rw [← hfst, List.length_map]
    have hrow : (crow m dir pos).length = d.length := by
      rw [crow_length m dir pos hlen, hdlen]
    rw [List.foldl_cons]
    obtain ⟨h1, h2⟩ := foldl_stepD_invariants m dir hlen rest
      (stepD d (crow m dir pos)) (k + 1)
      (by rw [stepD_map_fst d _ hrow, hfst])
      (stepD_entry_length d _ k hk)
    refine ⟨h1, fun kv hkv => ?_⟩
    have := h2 kv hkv
    simp only [List.length_cons]
    omega

/-- Folding the accumulator rows into the fresh dictionary and converting to a
dataframe produces exactly the column list and one `crow` row per position. -/
theorem toAgg_foldl (m : TermMatrix) (dir : Int) (hne : m.columns ≠ [])
    (hlen : ∀ r ∈ m.rows, r.2.length = m.columns.length) (ps : List ℕ) :
    toAgg (ps.foldl (fun d2 pos => stepD d2 (crow m dir pos))
        (m.columns.map (fun c => (c, [])))) =
      some ⟨m.columns, ps.map (crow m dir)⟩ := by
  have hd0fst : (m.columns.map (fun c => (c, ([] : List ℚ)))).map Prod.fst =
      m.columns := by
    rw [List.map_map]
    exact List.map_id m.columns
  have hd0len : ∀ kv ∈ m.columns.map (fun c => (c, ([] : List ℚ))),
      kv.2.length = 0 := by
    intro kv hkv
    rcases List.mem_map.mp hkv with ⟨c, _, rfl⟩
    rfl
  induction ps using List.reverseRecOn with
  | nil =>
    rw [List.foldl_nil,
      toAgg_uniform _ 0 (by simp only [ne_eq, List.map_eq_nil_iff]; exact hne) hd0len,
      hd0fst]
    simp
  | append_singleton ps pos ih =>
    rw [List.foldl_append, List.foldl_cons, List.foldl_nil]
    set D := ps.foldl (fun d2 pos => stepD d2 (crow m dir pos))
      (m.columns.map (fun c => (c, []))) with hD
    obtain ⟨hfstD, hlenD⟩ :=
      foldl_stepD_invariants m dir hlen ps (m.columns.map (fun c => (c, []))) 0
        hd0fst hd0len
    rw [← hD] at hfstD hlenD
    have hlenD0 : ∀ kv ∈ D, kv.2.length = ps.length := fun kv hkv => by
      have := hlenD kv hkv
      omega
    have hDne : D ≠ [] := by
      intro h0
      rw [h0] at hfstD
      simp only [List.map_nil] at hfstD
      exact hne hfstD.symm
    have hDlen : D.length = m.columns.length := by
      rw [← hfstD, List.length_map]
    have hrowlen : (crow m dir pos).length = D.length := by
      rw [crow_length m dir pos hlen, hDlen]
    have hstepne : stepD D (crow m dir pos) ≠ [] := by
      refine List.ne_nil_of_length_pos ?_
      rw [stepD, List.length_zipWith, hDlen, crow_length m dir pos hlen]
      simpa using List.length_pos.mpr hne
    rw [toAgg_uniform _ (ps.length + 1) hstepne
      (stepD_entry_length D _ ps.length hlenD0)]
    rw [toAgg_uniform D ps.length hDne hlenD0] at ih
    injection ih with ih2
    injection ih2 with ihc ihr
    refine congrArg some ?_
    have hc : (stepD D (crow m dir pos)).map Prod.fst = m.columns := by
      rw [stepD_map_fst D _ hrowlen]
      exact ihc
    have hr : (List.range (ps.length + 1)).map
        (fun p => (stepD D (crow m dir pos)).map (fun kv => kv.2.getD p 0)) =
        (ps ++ [pos]).map (crow m dir) := by
      rw [List.range_succ, List.map_append, List.map_append]
      congr 1
      · rw [List.map_congr_left (fun p hp =>
          map_getD_stepD_lt D _ ps.length p hrowlen hlenD0 (List.mem_range.mp hp))]
        exact ihr
      · simp only [List.map_cons, List.map_nil]
        rw [map_getD_stepD_last D _ ps.length hrowlen hlenD0]
    rw [hc, hr]

/-- Master description of the live aggregation path: with a non-empty,
whitespace-free, duplicate-free column list, well-sized rows and group tuples
long enough for every position, `aggCore` succeeds and returns the original
column list with one accumulator row per position. -/
theorem aggCore_spec (m : TermMatrix) (dir : Int) (ps : List ℕ)
    (hne : m.columns ≠ []) (hstripinv : ∀ c ∈ m.columns, pyStrip c = c)
    (hnodup : m.columns.Nodup)
    (hlen : ∀ r ∈ m.rows, r.2.length = m.columns.length)
    (hg : ∀ pos ∈ ps, ∀ r ∈ m.rows, pos < r.1.length) :
    aggCore m dir ps = some ⟨m.columns, ps.map (crow m dir)⟩ := by
  unfold aggCore
  rw [emptyDict_eq_append m.columns [] hstripinv hnodup (by simp), List.nil_append,
    aggLoop_eq_foldl m dir hnodup hlen ps _
      (by rw [List.map_map]; exact List.map_id m.columns) hg]
  exact toAgg_foldl m dir hne hlen ps

/-- C3 (amended): for a well-formed matrix (non-empty whitespace-free
duplicate-free columns, one value per column in each row, group tuples
covering every time point), row `t` of `makeTimeAggregationMatrix` is the
element-wise sum of exactly those input rows whose group tuple has entry `+1`
at position `t` (direction up) or `-1` (direction down), a `0` entry matching
neither; and on the three-group scenario matrix over 3 time points with
direction up the rows are `(3,3)`, `(1,3)`, `(1,3)` — the third row is
`(A=1, B=3)`, not the `(A=0, B=0)` stated in the claim, because group
`(1,1,1)` has entry `+1` at time 2. -/
theorem makeTimeAggregationMatrix_rows_spec (numTimes : ℕ) (m : TermMatrix)
    (is_up_regulated : Bool)
    (hne : m.columns ≠ []) (hstripinv : ∀ c ∈ m.columns, pyStrip c = c)
    (hnodup : m.columns.Nodup)
    (hlen : ∀ r ∈ m.rows, r.2.length = m.columns.length)
    (hg : ∀ r ∈ m.rows, numTimes ≤ r.1.length) :
    (makeTimeAggregationMatrix numTimes m is_up_regulated =
      some ⟨m.columns, (List.range numTimes).map (fun t =>
        rowSum m.columns.length
          ((m.rows.filter (fun r =>
            r.1.getD t 0 == (if is_up_regulated then 1 else -1))).map Prod.snd))⟩) ∧
    makeTimeAggregationMatrix 3
        ⟨["A", "B"], [([1, 0, -1], [2, 0]), ([1, 1, 1], [1, 3]), ([-1, -1, 0], [0, 1])]⟩
        true =
      some ⟨["A", "B"], [[3, 3], [1, 3], [1, 3]]⟩ := by
  constructor
  · unfold makeTimeAggregationMatrix
    rw [aggCore_spec m _ _ hne hstripinv hnodup hlen
      (fun pos hpos r hr => Nat.lt_of_lt_of_le (List.mem_range.mp hpos) (hg r hr))]
    refine congrArg some ?_
    refine congrArg (AggMatrix.mk m.columns) ?_
    exact List.map_congr_left (fun t _ => crow_eq_rowSum_filter m _ t)
  · simp +decide [makeTimeAggregationMatrix, aggCore, aggLoop, computeRow, computeRowAux,
      appendAll, dictAppend, emptyDict, toAgg, pyStrip, List.range_succ]
    norm_num

theorem makeTimeAggregationMatrix_rows_spec_witness :
    makeTimeAggregationMatrix 3
        ⟨["A", "B"], [([1, 0, -1], [2, 0]), ([1, 1, 1], [1, 3]), ([-1, -1, 0], [0, 1])]⟩
        true =
      some ⟨["A", "B"], (List.range 3).map (fun t =>
        rowSum (["A", "B"] : List String).length
          (((⟨["A", "B"], [([1, 0, -1], [2, 0]), ([1, 1, 1], [1, 3]),
              ([-1, -1, 0], [0, 1])]⟩ : TermMatrix).rows.filter (fun r =>
            r.1.getD t 0 == (if true then 1 else -1))).map Prod.snd))⟩ :=
  (makeTimeAggregationMatrix_rows_spec 3
    ⟨["A", "B"], [([1, 0, -1], [2, 0]), ([1, 1, 1], [1, 3]), ([-1, -1, 0], [0, 1])]⟩
    true (by decide) (by decide) (by decide) (by decide) (by decide)).1

/-- C4 (amended): provided the matrix has at least one column, no column name
carries leading or trailing whitespace, the column names are distinct, every
row has one value per column, and every group tuple is long enough for every
partition index, both aggregation functions return a matrix with exactly the
input's column set and one row per partition; and a partition position
matched by no group yields the all-zero row rather than a dropped row.
(Without the whitespace condition the output column set is the stripped
names, or the per-column append raises `KeyError`, as the counterexample
shows.) -/
theorem aggregation_preserves_columns_of_clean_names (m : TermMatrix)
    (predicates : List (List Int → Bool)) (numTimes : ℕ) (is_up_regulated : Bool)
    (hne : m.columns ≠ []) (hstripinv : ∀ c ∈ m.columns, pyStrip c = c)
    (hnodup : m.columns.Nodup)
    (hlen : ∀ r ∈ m.rows, r.2.length = m.columns.length)
    (hg1 : ∀ r ∈ m.rows, predicates.length ≤ r.1.length)
    (hg2 : ∀ r ∈ m.rows, numTimes ≤ r.1.length) :
    (makeAggregationMatrix m predicates =
      some ⟨m.columns, (List.range predicates.length).map (crow m 1)⟩) ∧
    (makeTimeAggregationMatrix numTimes m is_up_regulated =
      some ⟨m.columns, (List.range numTimes).map
        (crow m (if is_up_regulated then 1 else -1))⟩) ∧
    ∀ dir : Int, ∀ pos : ℕ,
      (∀ r ∈ m.rows, (r.1.getD pos 0 == dir) = false) →
      crow m dir pos = List.replicate m.columns.length 0 := by
  refine ⟨?_, ?_, fun dir pos h => crow_zero_of_no_match m dir pos h⟩
  · exact aggCore_spec m 1 _ hne hstripinv hnodup hlen
      (fun pos hpos r hr => Nat.lt_of_lt_of_le (List.mem_range.mp hpos) (hg1 r hr))
  · exact aggCore_spec m _ _ hne hstripinv hnodup hlen
      (fun pos hpos r hr => Nat.lt_of_lt_of_le (List.mem_range.mp hpos) (hg2 r hr))

theorem aggregation_preserves_columns_of_clean_names_witness :
    (makeAggregationMatrix ⟨["T"], [([0, 1], [4])]⟩ [fun _ => true] =
      some ⟨["T"], (List.range ([fun (_ : List Int) => true] :
        List (List Int → Bool)).length).map (crow ⟨["T"], [([0, 1], [4])]⟩ 1)⟩) ∧
    crow ⟨["T"], [([0, 1], [4])]⟩ 1 0 =
      List.replicate (["T"] : List String).length 0 :=
  ⟨(aggregation_preserves_columns_of_clean_names ⟨["T"], [([0, 1], [4])]⟩
      [fun _ => true] 2 true (by decide) (by decide) (by decide) (by decide)
      (by decide) (by decide)).1,
   (aggregation_preserves_columns_of_clean_names ⟨["T"], [([0, 1], [4])]⟩
      [fun _ => true] 2 true (by decide) (by decide) (by decide) (by decide)
      (by decide) (by decide)).2.2 1 0 (by decide)⟩

/-- Helper: zipping the two projections of a list of pairs gives it back. -/
theorem zip_map_fst_snd_self {α β : Type} :
    ∀ (l : List (α × β)), (l.map Prod.fst).zip (l.map Prod.snd) = l
  | [] => rfl
  | p :: rest => by
    rw [List.map_cons, List.map_cons, List.zip_cons_cons, zip_map_fst_snd_self rest]

/-- A row fails the all-equal test exactly when it holds two distinct values. -/
theorem allEqual_eq_false_iff (xs : List ℚ) :
    allEqual xs = false ↔ ∃ a ∈ xs, ∃ b ∈ xs, a ≠ b := by
  cases xs with
  | nil => simp [allEqual]
  | cons x rest =>
    show rest.all (fun y => y == x) = false ↔ _
    rw [List.all_eq_false]
    constructor
    · rintro ⟨y, hy, hne⟩
      exact ⟨y, List.mem_cons_of_mem x hy, x, List.mem_cons_self x rest,
        by simpa using hne⟩
    · rintro ⟨a, ha, b, hb, hab⟩
      by_cases hax : a = x
      · subst hax
        rcases List.mem_cons.mp hb with rfl | hb2
        · exact absurd rfl hab
        · exact ⟨b, hb2, by simpa using fun he => hab he.symm⟩
      · rcases List.mem_cons.mp ha with rfl | ha2
        · exact absurd rfl hax
        · exact ⟨a, ha2, by simpa using hax⟩

/-- The pairs surviving `filterZeroVarianceRows`, read back as a zip. -/
theorem filterZeroVariance_zip (m : LabeledMatrix) :
    (filterZeroVarianceRows m).index.zip (filterZeroVarianceRows m).rows =
      (m.index.zip m.rows).filter (fun p => !allEqual p.2) := by
  unfold filterZeroVarianceRows
  exact zip_map_fst_snd_self _

/-- C6: inside `calcClusters` the zero-variance filter runs term-major — it is
applied to the transposed aggregation matrix — and significance scoring is
applied to its output; and the filter is exact (modelled from the spec, since
`util_statistics.filterZeroVarianceRows` lives in `common_python`, outside
`src/`): every retained row holds at least two distinct values, every row
with two distinct values is retained, and every dropped row has all its
values equal. -/
theorem filterZeroVariance_exact_and_term_major {α : Type} (numTimes : ℕ)
    (scoreRow : List ℚ → List ℚ) (mkLinkage : List (List ℚ) → α)
    (cutTree : α → ℚ → List ℕ) (m : TermMatrix) (max_distance : ℚ)
    (is_up_regulated : Bool) (a : AggMatrix)
    (out : LabeledMatrix × α × (List String × List ℕ))
    (hagg : makeTimeAggregationMatrix numTimes m is_up_regulated = some a)
    (hok : calcClusters numTimes scoreRow mkLinkage cutTree m max_distance
      is_up_regulated = Except.ok out) :
    out.1.index = (filterZeroVarianceRows (transposeAgg a)).index ∧
    out.1.rows = (filterZeroVarianceRows (transposeAgg a)).rows.map scoreRow ∧
    (∀ row ∈ (filterZeroVarianceRows (transposeAgg a)).rows,
      ∃ x ∈ row, ∃ y ∈ row, x ≠ y) ∧
    (∀ p ∈ (transposeAgg a).index.zip (transposeAgg a).rows,
      allEqual p.2 = false →
        p ∈ (filterZeroVarianceRows (transposeAgg a)).index.zip
          (filterZeroVarianceRows (transposeAgg a)).rows) ∧
    (∀ p ∈ (transposeAgg a).index.zip (transposeAgg a).rows,
      p ∉ (filterZeroVarianceRows (transposeAgg a)).index.zip
        (filterZeroVarianceRows (transposeAgg a)).rows →
      allEqual p.2 = true) := by
  have hstruct : out.1 = ⟨(filterZeroVarianceRows (transposeAgg a)).index,
      (filterZeroVarianceRows (transposeAgg a)).rows.map scoreRow⟩ := by
    unfold calcClusters at hok
    rw [hagg] at hok
    dsimp only at hok
    by_cases hlt : (((filterZeroVarianceRows (transposeAgg a)).rows.map
        scoreRow).length) < 2
    · rw [if_pos hlt] at hok
      exact absurd hok (by simp)
    · rw [if_neg hlt] at hok
      injection hok with hok2
      rw [← hok2]
  refine ⟨by rw [hstruct], by rw [hstruct], ?_, ?_, ?_⟩
  · intro row hrow
    unfold filterZeroVarianceRows at hrow
    rcases List.mem_map.mp hrow with ⟨p, hp, rfl⟩
    have := (List.mem_filter.mp hp).2
    exact (allEqual_eq_false_iff p.2).mp (by simpa using this)
  · intro p hp hvar
    rw [filterZeroVariance_zip]
    exact List.mem_filter.mpr ⟨hp, by simp [hvar]⟩
  · intro p hp hnot
    by_contra hne
    have hfalse : allEqual p.2 = false := by
      cases h : allEqual p.2
      · rfl
      · exact absurd h hne
    exact hnot (by
      rw [filterZeroVariance_zip]
      exact List.mem_filter.mpr ⟨hp, by simp [hfalse]⟩)

theorem filterZeroVariance_exact_and_term_major_witness :
    ((⟨["A", "B"], [[1, 0], [0, 2]]⟩ : LabeledMatrix) : LabeledMatrix).index =
      (filterZeroVarianceRows
        (transposeAgg ⟨["A", "B", "C"], [[1, 0, 2], [0, 2, 2]]⟩)).index ∧
    allEqual [(2 : ℚ), 2] = true :=
  ⟨(filterZeroVariance_exact_and_term_major 2 id (fun _ => ())
      (fun _ _ => [1, 1]) ⟨["A", "B", "C"], [([1, 0], [1, 0, 2]), ([0, 1], [0, 2, 2])]⟩
      1 true ⟨["A", "B", "C"], [[1, 0, 2], [0, 2, 2]]⟩
      (⟨["A", "B"], [[1, 0], [0, 2]]⟩, (), (["A", "B"], [1, 1]))
      (by simp +decide [makeTimeAggregationMatrix, aggCore, aggLoop, computeRow,
        computeRowAux, appendAll, dictAppend, emptyDict, toAgg, pyStrip,
        List.range_succ])
      (by simp +decide [calcClusters, makeTimeAggregationMatrix, aggCore, aggLoop,
        computeRow, computeRowAux, appendAll, dictAppend, emptyDict, toAgg, pyStrip,
        List.range_succ, transposeAgg, filterZeroVarianceRows, allEqual])).1,
   (filterZeroVariance_exact_and_term_major 2 id (fun _ => ())
      (fun _ _ => [1, 1]) ⟨["A", "B", "C"], [([1, 0], [1, 0, 2]), ([0, 1], [0, 2, 2])]⟩
      1 true ⟨["A", "B", "C"], [[1, 0, 2], [0, 2, 2]]⟩
      (⟨["A", "B"], [[1, 0], [0, 2]]⟩, (), (["A", "B"], [1, 1]))
      (by simp +decide [makeTimeAggregationMatrix, aggCore, aggLoop, computeRow,
        computeRowAux, appendAll, dictAppend, emptyDict, toAgg, pyStrip,
        List.range_succ])
      (by simp +decide [calcClusters, makeTimeAggregationMatrix, aggCore, aggLoop,
        computeRow, computeRowAux, appendAll, dictAppend, emptyDict, toAgg, pyStrip,
        List.range_succ, transposeAgg, filterZeroVarianceRows, allEqual])).2.2.2.2
     ("C", [2, 2]) (by decide) (by decide)⟩

/-- C7: once the aggregation matrix is built, `calcClusters` fails with
`DegenerateInputError` exactly when fewer than two terms survive the
zero-variance filter, and otherwise returns a result — it never produces a
tree or assignment from fewer than two elements.  (Modelled from the spec:
the failure stands for the error scipy's `linkage` raises on fewer than two
observations; scipy is not under `src/`.) -/
theorem calcClusters_degenerate_iff {α : Type} (numTimes : ℕ)
    (scoreRow : List ℚ → List ℚ) (mkLinkage : List (List ℚ) → α)
    (cutTree : α → ℚ → List ℕ) (m : TermMatrix) (max_distance : ℚ)
    (is_up_regulated : Bool) (a : AggMatrix)
    (hagg : makeTimeAggregationMatrix numTimes m is_up_regulated = some a) :
    ((filterZeroVarianceRows (transposeAgg a)).rows.length < 2 →
      calcClusters numTimes scoreRow mkLinkage cutTree m max_distance
        is_up_regulated = Except.error XError.degenerateInput) ∧
    (2 ≤ (filterZeroVarianceRows (transposeAgg a)).rows.length →
      ∃ out, calcClusters numTimes scoreRow mkLinkage cutTree m max_distance
        is_up_regulated = Except.ok out) := by
  constructor
  · intro h
    unfold calcClusters
    rw [hagg]
    dsimp only
    rw [if_pos (by simpa using h)]
  · intro h
    unfold calcClusters
    rw [hagg]
    dsimp only
    rw [if_neg (by simp only [List.length_map]; omega)]
    exact ⟨_, rfl⟩

theorem calcClusters_degenerate_iff_witness :
    calcClusters 2 id (fun _ => ()) (fun _ _ => [1]) ⟨["A"], [([1, 0], [1])]⟩ 1 true =
      Except.error XError.degenerateInput :=
  (calcClusters_degenerate_iff 2 id (fun _ => ()) (fun _ _ => [1])
    ⟨["A"], [([1, 0], [1])]⟩ 1 true ⟨["A"], [[1], [0]]⟩
    (by simp +decide [makeTimeAggregationMatrix, aggCore, aggLoop, computeRow,
      computeRowAux, appendAll, dictAppend, emptyDict, toAgg, pyStrip,
      List.range_succ])).1 (by decide)
